import Mathlib

/-!
# Verification of `scripts/make_lastfm_banner.py`

A shallow embedding of the banner-generation script, together with theorems
about its aggregation, selection, artwork-resolution and compositing logic.

The script pipeline is: fetch recent listen events from Last.fm, truncate to
the most recent `LAST_N_LISTENS` events, count plays per "artist — album" key,
select the `GRID²` most-played albums (Python `Counter.most_common`, a stable
selection), download each album's cover into a `TILE × TILE` square, and paste
the tiles row-major onto a `(GRID·TILE)²` canvas which is saved to `OUT_PATH`.

Python-specific semantics captured by the embedding:
* `dict` / `Counter` preserve insertion order, so both are modelled as
  association lists where a new key is appended at the end;
* `Counter.most_common(n)` is documented as equivalent to
  `sorted(items, key=count, reverse=True)[:n]` with a stable sort, modelled as
  `List.mergeSort` (stable) with a descending-count comparator followed by
  `take n`;
* Python truthiness on strings (`if not artist`, `if url`) is emptiness;
* JSON values reaching `track.get("artist")` / `track.get("album")` are
  modelled by `JsonField` (plain string, object with optional `name` /
  `"#text"` fields, or some other JSON type);
* the network and the image decoder are modelled by an oracle
  `net : String → DownloadOutcome` giving, per URL, either a failure or the
  decoded image content.
-/

namespace Banner

/-! ## Configuration constants (lines 12-17 of the script) -/

def LAST_N_LISTENS : Nat := 180

def GRID : Nat := 5

def TILE : Nat := 240

def OUT_PATH : String := "assets/banner.jpg"

/-- An RGB color triple. -/
structure Color where
  r : Nat
  g : Nat
  b : Nat
deriving DecidableEq, Repr

def FALLBACK_COLOR : Color := ⟨18, 18, 18⟩

/-! ## Data model of the JSON track objects -/

/-- A JSON value sitting in the `artist` or `album` slot of a track object:
either a plain string, an object (of which only the `name` and `"#text"`
fields are ever read), or a JSON value of any other type. -/
inductive JsonField where
  | fstr (s : String)
  | fobj (name : Option String) (text : Option String)
  | fother
deriving DecidableEq, Repr

/-- One entry of a track's `image` list; only its `"#text"` field is read. -/
structure ImageEntry where
  text : Option String
deriving DecidableEq, Repr

/-- A track object from the `user.getrecenttracks` response: optional
`artist` and `album` slots and the artwork-candidate list `image`
(ordered smallest to largest, possibly empty or absent, both modelled
as `[]`). -/
structure Track where
  artist : Option JsonField
  album : Option JsonField
  image : List ImageEntry
deriving DecidableEq, Repr

/-! ## `pick_best_image_url` (lines 42-52) -/

/-- The loop body of `pick_best_image_url` (lines 49-51): the entry's URL
when present and non-empty (Python truthiness), nothing otherwise. -/
def extractUrl (item : ImageEntry) : Option String :=
  match item.text with
  | some url => if url = "" then none else some url
  | none => none

/-- `pick_best_image_url`: scan the `image` list backwards and return the
first entry whose `"#text"` URL is present and non-empty. -/
def pick_best_image_url (track : Track) : Option String :=
  track.image.reverse.findSome? extractUrl

/-! ## `safe_album_key` (lines 55-82) -/

/-- The artist extraction of `safe_album_key`: `a.get("name")` when the
artist slot holds an object, the string itself when it holds a string,
`None` otherwise. -/
def artistName (track : Track) : Option String :=
  match track.artist with
  | some (.fobj name _) => name
  | some (.fstr s) => some s
  | _ => none

/-- The album extraction of `safe_album_key`: `al.get("#text")` when the
album slot holds an object, the string itself when it holds a string,
`None` otherwise. -/
def albumName (track : Track) : Option String :=
  match track.album with
  | some (.fobj _ text) => text
  | some (.fstr s) => some s
  | _ => none

/-- Python's `str.strip()`: drop leading and trailing whitespace. Defined on
the underlying character list so that it evaluates inside the kernel. -/
def pyStrip (s : String) : String :=
  ⟨((s.data.dropWhile Char.isWhitespace).reverse.dropWhile Char.isWhitespace).reverse⟩

/-- `safe_album_key`: build the `"artist — album"` aggregation key, or `None`
if either part is missing or (before or after trimming) empty. -/
def safe_album_key (track : Track) : Option String :=
  match artistName track, albumName track with
  | some artist, some album =>
    if artist = "" ∨ album = "" then none
    else
      let artist := pyStrip artist
      let album := pyStrip album
      if artist = "" ∨ album = "" then none
      else some (artist ++ " — " ++ album)
  | _, _ => none

/-! ## `download_and_fit` (lines 85-98) -/

/-- The pixel content of an image in the model: either decoded artwork
(abstracted to an opaque payload id) or a uniform solid color. -/
inductive ImgData where
  | artwork (payload : Nat)
  | uniform (c : Color)
deriving DecidableEq, Repr

/-- A PIL image: dimensions plus content. -/
structure Img where
  width : Nat
  height : Nat
  data : ImgData
deriving DecidableEq, Repr

/-- `Image.new("RGB", (w, h), c)`. -/
def Image_new (w h : Nat) (c : Color) : Img :=
  ⟨w, h, .uniform c⟩

/-- `ImageOps.fit(im, (w, h), ...)`: crop/resize to exactly the requested
dimensions; the (resampled) content still comes from `im`. -/
def ImageOps_fit (im : Img) (w h : Nat) : Img :=
  ⟨w, h, im.data⟩

/-- Everything that can happen when a URL is fetched and decoded: the HTTP
request fails (connection error, timeout or `raise_for_status`), the body
fails to decode as an image, or a decoded image is obtained. -/
inductive DownloadOutcome where
  | httpFailure
  | decodeFailure
  | content (payload w h : Nat)
deriving DecidableEq, Repr

/-- The `try` body of `download_and_fit` (lines 91-96): download, decode,
convert and fit; any failure escapes as an exception. -/
def download_and_fit_try (net : String → DownloadOutcome) (url : String)
    (tile_size : Nat) : Except Unit Img :=
  match net url with
  | .httpFailure => .error ()
  | .decodeFailure => .error ()
  | .content payload w h => .ok (ImageOps_fit ⟨w, h, .artwork payload⟩ tile_size tile_size)

/-- `download_and_fit`: the `try` body with every exception replaced by a
uniform fallback tile (lines 97-98). -/
def download_and_fit (net : String → DownloadOutcome) (url : String)
    (tile_size : Nat) : Img :=
  match download_and_fit_try net url tile_size with
  | .ok im => im
  | .error _ => Image_new tile_size tile_size FALLBACK_COLOR

/-! ## Aggregation (lines 113-127 of `main`) -/

/-- The aggregation state of `main`: `album_counts` is the `Counter`
(insertion-ordered key/count pairs) and `album_image` the `album_image`
dict (insertion-ordered key/URL pairs). -/
structure AggState where
  album_counts : List (String × Nat)
  album_image : List (String × String)
deriving DecidableEq, Repr

/-- `Counter` increment `album_counts[key] += 1`: bump the entry in place
when the key is present, append `(key, 1)` otherwise (Python dicts keep
insertion order). -/
def counterIncr (c : List (String × Nat)) (k : String) : List (String × Nat) :=
  match c with
  | [] => [(k, 1)]
  | (k', n) :: rest => if k' = k then (k', n + 1) :: rest else (k', n) :: counterIncr rest k

/-- One iteration of the aggregation loop (lines 116-125): skip keyless
tracks, bump the key's count, and record the track's best image URL if the
key has none recorded yet. -/
def aggStep (st : AggState) (t : Track) : AggState :=
  match safe_album_key t with
  | none => st
  | some key =>
    let counts := counterIncr st.album_counts key
    let images :=
      if (st.album_image.lookup key).isSome then st.album_image
      else
        match pick_best_image_url t with
        | some url => st.album_image ++ [(key, url)]
        | none => st.album_image
    ⟨counts, images⟩

/-- The whole aggregation pass: truncate to the last `LAST_N_LISTENS`
events (line 110) and fold the loop body over them. -/
def aggregate (tracks : List Track) : AggState :=
  (tracks.take LAST_N_LISTENS).foldl aggStep ⟨[], []⟩

/-- The comparator under `Counter.most_common`: descending play count. -/
def countDescLE (p q : String × Nat) : Bool :=
  decide (q.2 ≤ p.2)

/-- `Counter.most_common(n)`: the documented semantics
`sorted(items, key=count, reverse=True)[:n]` with a stable sort. -/
def most_common (c : List (String × Nat)) (n : Nat) : List (String × Nat) :=
  (c.mergeSort countDescLE).take n

/-- Line 127: `top_albums = [k for k, _ in album_counts.most_common(GRID * GRID)]`. -/
def top_albums (st : AggState) : List String :=
  (most_common st.album_counts (GRID * GRID)).map Prod.fst

/-- The final album selection produced for an event list. -/
def selection (tracks : List Track) : List String :=
  top_albums (aggregate tracks)

/-! ## Canvas and the render loop (lines 129-146) -/

/-- The output canvas: dimensions plus per-pixel content. -/
structure Canvas where
  width : Nat
  height : Nat
  pix : Nat → Nat → ImgData

/-- `Image.new("RGB", (w, h), c)` used as the canvas allocation (line 132). -/
def Canvas.new (w h : Nat) (c : Color) : Canvas :=
  ⟨w, h, fun _ _ => .uniform c⟩

/-- `canvas.paste(tile, (x, y))`: overwrite the rectangle of `tile`'s
dimensions anchored at `(x, y)` with `tile`'s content. -/
def Canvas.paste (cv : Canvas) (tile : Img) (x y : Nat) : Canvas :=
  { cv with
    pix := fun px py =>
      if x ≤ px ∧ px < x + tile.width ∧ y ≤ py ∧ py < y + tile.height then tile.data
      else cv.pix px py }

/-- Lines 140-142: the tile used for an album key — the downloaded-and-fitted
artwork when a URL is recorded for the key, a fallback tile otherwise. -/
def tileFor (net : String → DownloadOutcome) (album_image : List (String × String))
    (k : String) : Img :=
  match album_image.lookup k with
  | some url => download_and_fit net url TILE
  | none => Image_new TILE TILE FALLBACK_COLOR

/-- Observable events of one render-loop iteration: the tile-resolution step
for an album key (recording whether a URL was recorded for it) and the
unconditional `time.sleep(0.05)` throttle. -/
inductive LoopEvent where
  | resolveTile (album_key : String) (hadUrl : Bool)
  | sleepThrottle
deriving DecidableEq, Repr

/-- One iteration of the render loop (lines 134-146): locate the cell of the
enumeration index, resolve the tile, paste it, then sleep. -/
def renderStep (net : String → DownloadOutcome) (album_image : List (String × String))
    (acc : Canvas × List LoopEvent) (item : Nat × String) : Canvas × List LoopEvent :=
  let row := item.1 / GRID
  let col := item.1 % GRID
  let x := col * TILE
  let y := row * TILE
  let tile := tileFor net album_image item.2
  (acc.1.paste tile x y,
    acc.2 ++ [.resolveTile item.2 (album_image.lookup item.2).isSome, .sleepThrottle])

/-- The full render loop: allocate the canvas (lines 130-132) and fold the
loop body over `enumerate(top_albums)`. -/
def renderAll (net : String → DownloadOutcome) (sel : List String)
    (album_image : List (String × String)) : Canvas × List LoopEvent :=
  sel.enum.foldl (renderStep net album_image)
    (Canvas.new (GRID * TILE) (GRID * TILE) FALLBACK_COLOR, [])

/-! ## Specification-side vocabulary

Predicates used to state the claims; they are not part of the program. -/

/-- A field value that is missing, or blank after trimming whitespace. -/
def blankField (f : Option String) : Bool :=
  match f with
  | none => true
  | some s => pyStrip s == ""

/-- An artwork-candidate entry whose URL field is absent or empty. -/
def blankEntry (e : ImageEntry) : Bool :=
  match e.text with
  | none => true
  | some u => u == ""

/-- Whether a track aggregates under the album key `k`. -/
def keyMatches (k : String) (t : Track) : Bool :=
  safe_album_key t == some k

/-- How many events of `l` aggregate under the album key `k`. -/
def countKey (l : List Track) (k : String) : Nat :=
  l.countP (keyMatches k)

/-- The index in `l` of the first event aggregating under `k`
(`l.length` when there is none). -/
def firstKeyIdx (l : List Track) (k : String) : Nat :=
  l.findIdx (keyMatches k)

/-- The `album_counts` component of one aggregation step. -/
def stepCounts (c : List (String × Nat)) (t : Track) : List (String × Nat) :=
  match safe_album_key t with
  | none => c
  | some k => counterIncr c k

/-- The `album_counts` Counter built from an event list. -/
def countsOf (l : List Track) : List (String × Nat) :=
  l.foldl stepCounts []

/-- The count stored in a Counter for a key (`0` when absent). -/
def lookupNat (c : List (String × Nat)) (k : String) : Nat :=
  (c.lookup k).getD 0

/-! ## `main` (lines 101-149) -/

/-- The observable result of a successful run: the saved file. -/
structure SavedFile where
  path : String
  canvas : Canvas
  quality : Nat

/-- `main` after the HTTP fetch: `tracks` is the (already extracted) track
list of the response; an empty list raises `RuntimeError` (lines 106-107)
and nothing is written; otherwise aggregate, select, render and save. -/
def main_run (net : String → DownloadOutcome) (tracks : List Track) :
    Except String SavedFile :=
  if tracks = [] then .error "No tracks returned. CHECK LASTFM_USER / API key"
  else
    let st := aggregate tracks
    let sel := top_albums st
    .ok { path := OUT_PATH, canvas := (renderAll net sel st.album_image).1, quality := 92 }

/-!
# Theorems
-/

/-- C5: the ingestion parser accepts the artist and album sub-objects in
either shape — a plain string, or an object carrying the name in its named
field (`name` for artists, `"#text"` for albums) — and extracts the name
string from either shape, symmetrically for both artist and album. -/
theorem C5_field_shapes (s : String) (nm tx : Option String)
    (art alb : Option JsonField) (imgs : List ImageEntry) :
    artistName ⟨some (.fstr s), alb, imgs⟩ = some s ∧
    artistName ⟨some (.fobj (some s) tx), alb, imgs⟩ = some s ∧
    albumName ⟨art, some (.fstr s), imgs⟩ = some s ∧
    albumName ⟨art, some (.fobj nm (some s)), imgs⟩ = some s :=
  ⟨rfl, rfl, rfl, rfl⟩

/-- C10: album-key construction is not injective — the tracks
(artist `"A — B"`, album `"C"`) and (artist `"A"`, album `"B — C"`) have
different artist and album fields but the same album key, so they are
aggregated together. -/
theorem C10_key_collision :
    safe_album_key ⟨some (.fstr "A — B"), some (.fstr "C"), []⟩ =
        safe_album_key ⟨some (.fstr "A"), some (.fstr "B — C"), []⟩ ∧
    safe_album_key ⟨some (.fstr "A — B"), some (.fstr "C"), []⟩ = some "A — B — C" ∧
    artistName ⟨some (.fstr "A — B"), some (.fstr "C"), []⟩ ≠
        artistName ⟨some (.fstr "A"), some (.fstr "B — C"), []⟩ ∧
    albumName ⟨some (.fstr "A — B"), some (.fstr "C"), []⟩ ≠
        albumName ⟨some (.fstr "A"), some (.fstr "B — C"), []⟩ := by
  refine ⟨by decide, by decide, by decide, by decide⟩

/-- C4: when the history service returns zero events, `main` raises the
fatal `RuntimeError` before any aggregation, download or canvas work, and
no output file is produced. -/
theorem C4_zero_events_fatal (net : String → DownloadOutcome) :
    main_run net [] = .error "No tracks returned. CHECK LASTFM_USER / API key" ∧
    ∀ sf : SavedFile, main_run net [] ≠ .ok sf := by
  refine ⟨rfl, fun sf h => ?_⟩
  simp [main_run] at h

/-- C3: for every URL and every download/decode outcome, `download_and_fit`
returns a tile of exactly `tile_size × tile_size` pixels whose content is
either the fitted artwork or the uniform fallback color, and when the `try`
body fails the failure is absorbed into a fallback tile rather than
propagated. -/
theorem C3_tile_always_square (net : String → DownloadOutcome) (url : String)
    (tile_size : Nat) :
    (download_and_fit net url tile_size).width = tile_size ∧
    (download_and_fit net url tile_size).height = tile_size ∧
    ((∃ p, (download_and_fit net url tile_size).data = .artwork p) ∨
      (download_and_fit net url tile_size).data = .uniform FALLBACK_COLOR) ∧
    (∀ e : Unit, download_and_fit_try net url tile_size = .error e →
      download_and_fit net url tile_size = Image_new tile_size tile_size FALLBACK_COLOR) := by
  cases h : net url <;>
    simp [download_and_fit, download_and_fit_try, h, ImageOps_fit, Image_new]

/-- C3 witness: a failing download at a concrete URL yields the fallback
tile. -/
theorem C3_tile_always_square_witness :
    download_and_fit (fun _ => .httpFailure) "http:art" 240 =
      Image_new 240 240 FALLBACK_COLOR :=
  (C3_tile_always_square (fun _ => .httpFailure) "http:art" 240).2.2.2 () rfl

/-- C2: an event whose artist or album is missing or blank after trimming
produces no album key, and the aggregation step leaves the state unchanged
(no count is incremented, no image is recorded, and no error is raised). -/
theorem C2_blank_events_excluded (t : Track)
    (h : blankField (artistName t) = true ∨ blankField (albumName t) = true) :
    safe_album_key t = none ∧ ∀ st : AggState, aggStep st t = st := by
  have hkey : safe_album_key t = none := by
    unfold safe_album_key
    cases ha : artistName t with
    | none => rfl
    | some a =>
      cases hb : albumName t with
      | none => rfl
      | some b =>
        rw [ha, hb] at h
        simp only [blankField, beq_iff_eq] at h
        by_cases h1 : a = "" ∨ b = ""
        · simp [h1]
        · rcases h with h | h <;> simp [h1, h]
  exact ⟨hkey, fun st => by simp [aggStep, hkey]⟩

/-- The trace of the render loop: two events per processed album, appended
in iteration order. -/
theorem renderTrace_aux (net : String → DownloadOutcome)
    (images : List (String × String)) (l : List (Nat × String))
    (acc : Canvas × List LoopEvent) :
    (l.foldl (renderStep net images) acc).2 =
      acc.2 ++ l.flatMap (fun item =>
        [.resolveTile item.2 (images.lookup item.2).isSome, .sleepThrottle]) := by
  induction l generalizing acc with
  | nil => simp
  | cons x l ih =>
    rw [List.foldl_cons, ih, List.flatMap_cons]
    simp [renderStep]

/-- Counting the throttle events in a two-events-per-album trace. -/
theorem count_sleep_aux (b : String → Bool) (sel : List String) :
    (sel.flatMap (fun k =>
        ([.resolveTile k (b k), .sleepThrottle] : List LoopEvent))).count .sleepThrottle =
      sel.length := by
  induction sel with
  | nil => rfl
  | cons k sel ih => simp [List.flatMap_cons, List.count_append, ih, List.count_cons]

/-- C9: the render loop emits exactly the resolution step followed by the
fixed `time.sleep(0.05)` throttle for each selected album, unconditionally —
whether or not an artwork URL was recorded for the album and regardless of
the download outcome — so the number of delays equals the number of albums
placed. -/
theorem C9_one_delay_per_album (net : String → DownloadOutcome)
    (sel : List String) (album_image : List (String × String)) :
    (renderAll net sel album_image).2 =
      sel.flatMap (fun k =>
        [.resolveTile k (album_image.lookup k).isSome, .sleepThrottle]) ∧
    (renderAll net sel album_image).2.count .sleepThrottle = sel.length := by
  have htrace : (renderAll net sel album_image).2 =
      sel.flatMap (fun k =>
        [.resolveTile k (album_image.lookup k).isSome, .sleepThrottle]) := by
    rw [renderAll, renderTrace_aux]
    rw [List.nil_append, List.flatMap, List.flatMap]
    have hmap : sel.enum.map (fun item : Nat × String =>
        ([.resolveTile item.2 (album_image.lookup item.2).isSome, .sleepThrottle] :
          List LoopEvent)) =
        sel.map (fun k =>
          [.resolveTile k (album_image.lookup k).isSome, .sleepThrottle]) := by
      rw [show (fun item : Nat × String =>
          ([.resolveTile item.2 (album_image.lookup item.2).isSome, .sleepThrottle] :
            List LoopEvent)) =
          (fun k : String =>
            ([.resolveTile k (album_image.lookup k).isSome, .sleepThrottle] :
              List LoopEvent)) ∘ Prod.snd from rfl]
      rw [← List.map_map, List.enum_map_snd]
    rw [hmap]
  exact ⟨htrace, by rw [htrace]; exact count_sleep_aux _ sel⟩

/-- An `extractUrl` miss is exactly a blank artwork-candidate entry. -/
theorem extractUrl_eq_none_iff (e : ImageEntry) :
    extractUrl e = none ↔ blankEntry e = true := by
  cases h : e.text with
  | none => simp [extractUrl, blankEntry, h]
  | some u => by_cases hu : u = "" <;> simp [extractUrl, blankEntry, h, hu]

/-- An `extractUrl` hit returns the entry's URL, which is non-empty. -/
theorem extractUrl_eq_some_iff (e : ImageEntry) (u : String) :
    extractUrl e = some u ↔ e.text = some u ∧ u ≠ "" := by
  obtain ⟨t⟩ := e
  cases t with
  | none => simp [extractUrl]
  | some v =>
    show (if v = "" then none else some v) = some u ↔ some v = some u ∧ u ≠ ""
    simp only [Option.some.injEq]
    by_cases hv : v = ""
    · rw [if_pos hv]
      constructor
      · intro h'; simp at h'
      · rintro ⟨rfl, hne⟩; exact absurd hv hne
    · rw [if_neg hv]
      simp only [Option.some.injEq]
      constructor
      · intro h'; exact ⟨h', fun he => hv (by rw [h', he])⟩
      · rintro ⟨h', _⟩; exact h'

/-- A singleton `findSome?` is just the function applied to the element. -/
theorem findSome_singleton_aux (e : ImageEntry) :
    ([e].findSome? extractUrl) = extractUrl e := by
  cases h : extractUrl e <;> simp [List.findSome?_cons, h]

/-- Backward-scan characterization of `findSome? extractUrl` over a reversed
candidate list: it fails exactly when every entry is blank, and a hit is the
entry closest to the end with everything after it blank. -/
theorem pick_aux (l : List ImageEntry) :
    (l.reverse.findSome? extractUrl = none ↔ ∀ e ∈ l, blankEntry e = true) ∧
    ∀ u, l.reverse.findSome? extractUrl = some u →
      ∃ (i : Nat) (hi : i < l.length), (l.get ⟨i, hi⟩).text = some u ∧ u ≠ "" ∧
        ∀ (j : Nat) (hj : j < l.length), i < j → blankEntry (l.get ⟨j, hj⟩) = true := by
  induction l with
  | nil => simp
  | cons x l ih =>
    rcases ih with ⟨ih_none, ih_some⟩
    constructor
    · rw [List.reverse_cons, List.findSome?_append, findSome_singleton_aux]
      constructor
      · intro h
        have h1 : l.reverse.findSome? extractUrl = none ∧ extractUrl x = none := by
          cases ha : l.reverse.findSome? extractUrl <;> cases hb : extractUrl x <;>
            simp_all [Option.or]
        intro e he
        rcases List.mem_cons.mp he with rfl | he'
        · exact (extractUrl_eq_none_iff e).mp h1.2
        · exact ih_none.mp h1.1 e he'
      · intro hall
        have hx : extractUrl x = none :=
          (extractUrl_eq_none_iff x).mpr (hall x (List.mem_cons_self x l))
        have hl : l.reverse.findSome? extractUrl = none :=
          ih_none.mpr (fun e he => hall e (List.mem_cons_of_mem x he))
        simp [hl, hx]
    · intro u hu
      rw [List.reverse_cons, List.findSome?_append, findSome_singleton_aux] at hu
      cases hp : l.reverse.findSome? extractUrl with
      | some u₀ =>
        rw [hp] at hu
        have hu₀ : u₀ = u := by simpa [Option.or] using hu
        subst hu₀
        obtain ⟨i, hi, h1, h2, h3⟩ := ih_some u₀ hp
        refine ⟨i + 1, by simpa using Nat.succ_lt_succ hi, by simpa using h1, h2, ?_⟩
        intro j hj hij
        cases j with
        | zero => omega
        | succ j' =>
          have hj' : j' < l.length := by simpa using hj
          have := h3 j' hj' (by omega)
          simpa using this
      | none =>
        rw [hp] at hu
        have hx : extractUrl x = some u := by simpa [Option.or] using hu
        obtain ⟨hxt, hne⟩ := (extractUrl_eq_some_iff x u).mp hx
        refine ⟨0, Nat.succ_pos _, by simpa using hxt, hne, ?_⟩
        intro j hj hij
        cases j with
        | zero => omega
        | succ j' =>
          have hj' : j' < l.length := by simpa using hj
          have hmem : (l.get ⟨j', hj'⟩) ∈ l := List.get_mem l j' hj'
          have := ih_none.mp hp _ hmem
          simpa using this

/-- C6: the artwork URL selected for a track is the first entry with a
non-empty URL found when scanning the candidate list from the end backward,
and no URL is selected exactly when every entry's URL is absent or empty. -/
theorem C6_backward_scan (t : Track) :
    (pick_best_image_url t = none ↔ ∀ e ∈ t.image, blankEntry e = true) ∧
    ∀ u, pick_best_image_url t = some u →
      ∃ (i : Nat) (hi : i < t.image.length),
        (t.image.get ⟨i, hi⟩).text = some u ∧ u ≠ "" ∧
        ∀ (j : Nat) (hj : j < t.image.length), i < j →
          blankEntry (t.image.get ⟨j, hj⟩) = true :=
  pick_aux t.image

/-- C6 witness: on a concrete candidate list the backward scan skips the
trailing empty entry and picks the last non-empty URL. -/
theorem C6_backward_scan_witness :
    pick_best_image_url ⟨none, none, [⟨some "small"⟩, ⟨some "big"⟩, ⟨some ""⟩]⟩ =
        some "big" ∧
    ∃ (i : Nat)
      (hi : i < ([⟨some "small"⟩, ⟨some "big"⟩, ⟨some ""⟩] : List ImageEntry).length),
      (([⟨some "small"⟩, ⟨some "big"⟩, ⟨some ""⟩] : List ImageEntry).get ⟨i, hi⟩).text =
          some "big" ∧ "big" ≠ "" ∧
      ∀ (j : Nat)
        (hj : j < ([⟨some "small"⟩, ⟨some "big"⟩, ⟨some ""⟩] : List ImageEntry).length),
        i < j →
          blankEntry (([⟨some "small"⟩, ⟨some "big"⟩, ⟨some ""⟩] : List ImageEntry).get
            ⟨j, hj⟩) = true :=
  ⟨by decide,
    (C6_backward_scan ⟨none, none, [⟨some "small"⟩, ⟨some "big"⟩, ⟨some ""⟩]⟩).2 "big"
      (by decide)⟩

/-- Folding the aggregation loop accumulates, per key, the first recorded
URL: an already-recorded URL absorbs everything, and otherwise the first
key-matching event with a usable candidate list provides it. -/
theorem imagesFold_aux (k : String) (l : List Track) (st : AggState) :
    (l.foldl aggStep st).album_image.lookup k =
      (st.album_image.lookup k).or
        ((((l.filter (keyMatches k)).filterMap pick_best_image_url)).head?) := by
  induction l generalizing st with
  | nil => simp
  | cons t l ih =>
    rw [List.foldl_cons, ih]
    cases hk : safe_album_key t with
    | none =>
      have hstep : aggStep st t = st := by simp [aggStep, hk]
      have hfil : keyMatches k t = false := by simp [keyMatches, hk]
      rw [hstep, List.filter_cons_of_neg (by simp [hfil])]
    | some k₀ =>
      by_cases hkk : k₀ = k
      · subst hkk
        have hfil : keyMatches k₀ t = true := by simp [keyMatches, hk]
        rw [List.filter_cons_of_pos hfil]
        cases hs : st.album_image.lookup k₀ with
        | some v =>
          have : (aggStep st t).album_image = st.album_image := by
            simp [aggStep, hk, hs]
          rw [this, hs]
          simp
        | none =>
          cases hp : pick_best_image_url t with
          | some url =>
            have himg : (aggStep st t).album_image =
                st.album_image ++ [(k₀, url)] := by
              simp [aggStep, hk, hs, hp]
            rw [himg, List.lookup_append, hs, List.filterMap_cons_some hp]
            simp
          | none =>
            have himg : (aggStep st t).album_image = st.album_image := by
              simp [aggStep, hk, hs, hp]
            rw [himg, hs, List.filterMap_cons_none hp]
      · have hfil : keyMatches k t = false := by
          simp [keyMatches, hk]
          exact fun h => absurd h hkk
        rw [List.filter_cons_of_neg (by simp [hfil])]
        have himg : (aggStep st t).album_image.lookup k =
            st.album_image.lookup k := by
          cases hs : st.album_image.lookup k₀ with
          | some v => simp [aggStep, hk, hs]
          | none =>
            cases hp : pick_best_image_url t with
            | some url =>
              have : (aggStep st t).album_image = st.album_image ++ [(k₀, url)] := by
                simp [aggStep, hk, hs, hp]
              rw [this, List.lookup_append]
              have hone : ([(k₀, url)] : List (String × String)).lookup k = none := by
                have hne : (k == k₀) = false := by
                  simp only [beq_eq_false_iff_ne, ne_eq]
                  exact fun h => hkk h.symm
                simp [List.lookup_cons, hne]
              rw [hone]
              simp
            | none => simp [aggStep, hk, hs, hp]
        rw [himg]

/-- C8: once an artwork URL is recorded for an album key, no later event
overwrites it, and the URL recorded by the aggregation pass is the one
picked from the earliest key-matching event of the window whose candidate
list yields a URL. -/
theorem C8_first_url_kept (tracks : List Track) (k : String) :
    (∀ (st : AggState) (t : Track), (st.album_image.lookup k).isSome = true →
        (aggStep st t).album_image.lookup k = st.album_image.lookup k) ∧
    (aggregate tracks).album_image.lookup k =
      (((tracks.take LAST_N_LISTENS).filter (keyMatches k)).filterMap
          pick_best_image_url).head? := by
  constructor
  · intro st t hsome
    cases hk : safe_album_key t with
    | none => simp [aggStep, hk]
    | some k₀ =>
      cases hs : st.album_image.lookup k₀ with
      | some v => simp [aggStep, hk, hs]
      | none =>
        cases hp : pick_best_image_url t with
        | none => simp [aggStep, hk, hs, hp]
        | some url =>
          have himg : (aggStep st t).album_image = st.album_image ++ [(k₀, url)] := by
            simp [aggStep, hk, hs, hp]
          have hne : (k == k₀) = false := by
            simp only [beq_eq_false_iff_ne, ne_eq]
            intro h
            rw [h] at hsome
            rw [hs] at hsome
            cases hsome
          rw [himg, List.lookup_append]
          have hone : ([(k₀, url)] : List (String × String)).lookup k = none := by
            simp [List.lookup_cons, hne]
          rw [hone]
          cases st.album_image.lookup k <;> rfl
  · have h := imagesFold_aux k (tracks.take LAST_N_LISTENS) ⟨[], []⟩
    simpa using h

/-- C8 witness: a state that already recorded `"u1"` for the key `"A — B"`
keeps it when a later event of the same key arrives carrying `"u2"`. -/
theorem C8_first_url_kept_witness :
    ((AggState.mk [] [("A — B", "u1")]).album_image.lookup "A — B").isSome = true ∧
    (aggStep ⟨[], [("A — B", "u1")]⟩
        ⟨some (.fstr "A"), some (.fstr "B"), [⟨some "u2"⟩]⟩).album_image.lookup "A — B" =
      some "u1" :=
  ⟨by decide,
    ((C8_first_url_kept [] "A — B").1 ⟨[], [("A — B", "u1")]⟩
        ⟨some (.fstr "A"), some (.fstr "B"), [⟨some "u2"⟩]⟩ (by decide)).trans (by decide)⟩

/-- A resolved tile always has `TILE × TILE` dimensions. -/
theorem tileFor_dims (net : String → DownloadOutcome)
    (images : List (String × String)) (k : String) :
    (tileFor net images k).width = TILE ∧ (tileFor net images k).height = TILE := by
  cases h : images.lookup k with
  | none => simp [tileFor, h, Image_new]
  | some url =>
    cases hn : net url <;>
      simp [tileFor, h, download_and_fit, download_and_fit_try, hn, Image_new, ImageOps_fit]

/-- The render loop never changes the canvas dimensions. -/
theorem render_dims_aux (net : String → DownloadOutcome)
    (images : List (String × String)) (l : List (Nat × String))
    (acc : Canvas × List LoopEvent) :
    ((l.foldl (renderStep net images) acc).1).width = acc.1.width ∧
    ((l.foldl (renderStep net images) acc).1).height = acc.1.height := by
  induction l generalizing acc with
  | nil => exact ⟨rfl, rfl⟩
  | cons x l ih =>
    rw [List.foldl_cons]
    rcases ih (renderStep net images acc x) with ⟨hw, hh⟩
    rw [hw, hh]
    exact ⟨rfl, rfl⟩

/-- Pixel-level characterization of the rendered canvas: inside the grid,
the pixel at `(px, py)` shows the tile of the album at row-major index
`py ÷ TILE · GRID + px ÷ TILE`, or the fallback color when that index is
beyond the selection. -/
theorem render_pix_aux (net : String → DownloadOutcome)
    (images : List (String × String)) (sel : List String) :
    sel.length ≤ GRID * GRID →
    ∀ px py, px < GRID * TILE → py < GRID * TILE →
      ((renderAll net sel images).1).pix px py =
        if h : py / TILE * GRID + px / TILE < sel.length then
          (tileFor net images (sel.get ⟨py / TILE * GRID + px / TILE, h⟩)).data
        else .uniform FALLBACK_COLOR := by
  induction sel using List.reverseRecOn with
  | nil =>
    intro _ px py hx hy
    simp [renderAll, Canvas.new]
  | append_singleton l a ih =>
    intro hlen px py hx hy
    have hl25 : l.length ≤ GRID * GRID := by
      have := hlen
      rw [List.length_append, List.length_singleton] at this
      omega
    have hstep : (renderAll net (l ++ [a]) images).1 =
        ((renderAll net l images).1).paste (tileFor net images a)
          ((l.length % GRID) * TILE) ((l.length / GRID) * TILE) := by
      rw [renderAll, renderAll, List.enum_append]
      rw [show List.enumFrom l.length [a] = [(l.length, a)] from rfl]
      rw [List.foldl_append]
      rfl
    have htw : (tileFor net images a).width = TILE := (tileFor_dims net images a).1
    have hth : (tileFor net images a).height = TILE := (tileFor_dims net images a).2
    have hprev := ih hl25 px py hx hy
    rw [hstep]
    simp only [Canvas.paste, htw, hth]
    by_cases hin : (l.length % GRID) * TILE ≤ px ∧ px < (l.length % GRID) * TILE + TILE ∧
        (l.length / GRID) * TILE ≤ py ∧ py < (l.length / GRID) * TILE + TILE
    · rw [if_pos hin]
      have hidx : py / TILE * GRID + px / TILE = l.length := by
        simp only [GRID, TILE] at hin ⊢
        omega
      have hlt : py / TILE * GRID + px / TILE < (l ++ [a]).length := by
        rw [hidx, List.length_append, List.length_singleton]
        omega
      rw [dif_pos hlt]
      have hget : (l ++ [a]).get ⟨py / TILE * GRID + px / TILE, hlt⟩ = a := by
        rw [List.get_eq_getElem]
        exact List.getElem_concat_length l a _ hidx _
      rw [hget]
    · rw [if_neg hin, hprev]
      by_cases hlt : py / TILE * GRID + px / TILE < l.length
      · have hlt' : py / TILE * GRID + px / TILE < (l ++ [a]).length := by
          rw [List.length_append, List.length_singleton]
          omega
        rw [dif_pos hlt, dif_pos hlt']
        have hget : (l ++ [a]).get ⟨py / TILE * GRID + px / TILE, hlt'⟩ =
            l.get ⟨py / TILE * GRID + px / TILE, hlt⟩ := by
          rw [List.get_eq_getElem, List.get_eq_getElem]
          exact List.getElem_append_left hlt
        rw [hget]
      · have hne : py / TILE * GRID + px / TILE ≠ l.length := by
          intro he
          apply hin
          simp only [GRID, TILE] at he hx hy ⊢
          omega
        have hlt' : ¬ py / TILE * GRID + px / TILE < (l ++ [a]).length := by
          rw [List.length_append, List.length_singleton]
          omega
        rw [dif_neg hlt, dif_neg hlt']

/-- C7: the composed canvas is exactly `(GRID·TILE) × (GRID·TILE)` pixels,
initially filled with the fallback color; the tile of the album at
selection index `i` occupies the cell at row `i ÷ GRID`, column
`i % GRID`, and every grid cell shows either its album's tile content or
the uniform fallback color — including cells beyond the number of
selected albums. -/
theorem C7_grid_fully_populated (net : String → DownloadOutcome)
    (images : List (String × String)) (sel : List String)
    (hlen : sel.length ≤ GRID * GRID) :
    ((renderAll net sel images).1).width = GRID * TILE ∧
    ((renderAll net sel images).1).height = GRID * TILE ∧
    ∀ px py, px < GRID * TILE → py < GRID * TILE →
      ((renderAll net sel images).1).pix px py =
        if h : py / TILE * GRID + px / TILE < sel.length then
          (tileFor net images (sel.get ⟨py / TILE * GRID + px / TILE, h⟩)).data
        else .uniform FALLBACK_COLOR := by
  refine ⟨?_, ?_, render_pix_aux net images sel hlen⟩
  · exact (render_dims_aux net images sel.enum _).1
  · exact (render_dims_aux net images sel.enum _).2

/-- C7 witness: with one selected album and no recorded URL, the top-left
pixel shows the placeholder tile and the canvas is 1200 × 1200. -/
theorem C7_grid_fully_populated_witness :
    ((renderAll (fun _ => .httpFailure) ["A — B"] []).1).width = GRID * TILE ∧
    ((renderAll (fun _ => .httpFailure) ["A — B"] []).1).pix 0 0 =
      ImgData.uniform FALLBACK_COLOR := by
  refine ⟨(C7_grid_fully_populated (fun _ => .httpFailure) [] ["A — B"] (by decide)).1, ?_⟩
  have h := (C7_grid_fully_populated (fun _ => .httpFailure) [] ["A — B"]
      (by decide)).2.2 0 0 (by decide) (by decide)
  rw [h]
  decide

/-- C2 witness: a whitespace-only artist on a concrete track is excluded
from aggregation. -/
theorem C2_blank_events_excluded_witness :
    (blankField (artistName ⟨some (.fstr "  "), some (.fstr "X"), []⟩) = true ∨
      blankField (albumName ⟨some (.fstr "  "), some (.fstr "X"), []⟩) = true) ∧
    safe_album_key ⟨some (.fstr "  "), some (.fstr "X"), []⟩ = none :=
  ⟨Or.inl (by decide),
    (C2_blank_events_excluded ⟨some (.fstr "  "), some (.fstr "X"), []⟩
      (Or.inl (by decide))).1⟩

/-! ### Infrastructure for the selection theorem (C1) -/

/-- The `album_counts` component of the aggregation fold only depends on the
`stepCounts` projection of the loop body. -/
theorem countsProj_aux (l : List Track) (st : AggState) :
    (l.foldl aggStep st).album_counts = l.foldl stepCounts st.album_counts := by
  induction l generalizing st with
  | nil => rfl
  | cons t l ih =>
    rw [List.foldl_cons, List.foldl_cons, ih]
    congr 1
    cases hk : safe_album_key t <;> simp [aggStep, stepCounts, hk]

/-- A `Counter` increment leaves the key order unchanged, except that a new
key is appended at the end. -/
theorem counterIncr_keys (c : List (String × Nat)) (k : String) :
    (counterIncr c k).map Prod.fst =
      if k ∈ c.map Prod.fst then c.map Prod.fst else c.map Prod.fst ++ [k] := by
  induction c with
  | nil => simp [counterIncr]
  | cons p c ih =>
    obtain ⟨k', n⟩ := p
    by_cases h : k' = k
    · subst h
      simp [counterIncr]
    · simp only [counterIncr, if_neg h, List.map_cons, ih]
      by_cases hm : k ∈ c.map Prod.fst <;>
        simp [hm, List.mem_cons, Ne.symm h]

/-- `lookupNat` on a cons cell: the head's value when the keys agree,
recursion otherwise. -/
theorem lookupNat_cons (a : String) (n : Nat) (c : List (String × Nat)) (k : String) :
    lookupNat ((a, n) :: c) k = if k = a then n else lookupNat c k := by
  by_cases h : k = a
  · subst h
    simp [lookupNat, List.lookup_cons]
  · have hne : (k == a) = false := by rw [beq_eq_false_iff_ne]; exact h
    simp [lookupNat, List.lookup_cons, hne, h]

/-- A `Counter` increment bumps exactly the incremented key's count. -/
theorem counterIncr_lookupNat (c : List (String × Nat)) (k k' : String) :
    lookupNat (counterIncr c k) k' = lookupNat c k' + (if k' = k then 1 else 0) := by
  induction c with
  | nil =>
    rw [show counterIncr [] k = [(k, 1)] from rfl, lookupNat_cons]
    have h0 : lookupNat ([] : List (String × Nat)) k' = 0 := by
      simp [lookupNat, List.lookup]
    rw [h0]
    by_cases h : k' = k <;> simp [h]
  | cons p c ih =>
    obtain ⟨a, n⟩ := p
    by_cases h : a = k
    · subst h
      rw [show counterIncr ((a, n) :: c) a = (a, n + 1) :: c from by simp [counterIncr]]
      rw [lookupNat_cons, lookupNat_cons]
      by_cases h2 : k' = a <;> simp [h2]
    · rw [show counterIncr ((a, n) :: c) k = (a, n) :: counterIncr c k from by
        simp [counterIncr, h]]
      rw [lookupNat_cons, lookupNat_cons]
      by_cases h2 : k' = a
      · have hne : ¬ k' = k := fun he => h (h2.symm.trans he)
        simp [h2, hne, h]
      · simp [h2, ih]

/-- In an association list with distinct keys, membership determines the
lookup result. -/
theorem lookup_of_mem_aux (c : List (String × Nat))
    (hnd : (c.map Prod.fst).Nodup) (p : String × Nat) (hp : p ∈ c) :
    c.lookup p.1 = some p.2 := by
  induction c with
  | nil => cases hp
  | cons q c ih =>
    obtain ⟨a, n⟩ := q
    rcases List.mem_cons.mp hp with rfl | hp'
    · simp [List.lookup_cons]
    · have hq : a ∉ c.map Prod.fst := (List.nodup_cons.mp hnd).1
      have hne : (p.1 == a) = false := by
        rw [beq_eq_false_iff_ne]
        intro he
        exact hq (he ▸ List.mem_map_of_mem Prod.fst hp')
      rw [List.lookup_cons]
      simp only [hne]
      exact ih (List.nodup_cons.mp hnd).2 hp'

/-- The aggregation `Counter` satisfies, for every event list: its keys are
distinct, each key's stored count is the key's play count in the list, its
keys are exactly the keys occurring in the list, and its keys are ordered
by first occurrence in the list. -/
theorem countsOf_inv (l : List Track) :
    ((countsOf l).map Prod.fst).Nodup ∧
    (∀ k, lookupNat (countsOf l) k = countKey l k) ∧
    (∀ k, k ∈ (countsOf l).map Prod.fst ↔ 0 < countKey l k) ∧
    List.Pairwise (fun a b => firstKeyIdx l a < firstKeyIdx l b)
      ((countsOf l).map Prod.fst) := by
  induction l using List.reverseRecOn with
  | nil =>
    refine ⟨List.nodup_nil, ?_, ?_, List.Pairwise.nil⟩
    · intro k; simp [countsOf, countKey, lookupNat]
    · intro k; simp [countsOf, countKey]
  | append_singleton l t ih =>
    obtain ⟨ha, hb, hc, hd⟩ := ih
    have hfold : countsOf (l ++ [t]) = stepCounts (countsOf l) t := by
      rw [countsOf, countsOf, List.foldl_append, List.foldl_cons, List.foldl_nil]
    have hcount : ∀ k, countKey (l ++ [t]) k =
        countKey l k + (if keyMatches k t then 1 else 0) := by
      intro k
      rw [countKey, countKey, List.countP_append]
      simp [List.countP_cons]
    have hfirstMem : ∀ k, 0 < countKey l k →
        firstKeyIdx (l ++ [t]) k = firstKeyIdx l k := by
      intro k hk
      have hex : ∃ x ∈ l, keyMatches k x = true := List.countP_pos_iff.mp hk
      have hlt : l.findIdx (keyMatches k) < l.length :=
        List.findIdx_lt_length.mpr hex
      rw [firstKeyIdx, firstKeyIdx, List.findIdx_append, if_pos hlt]
    have hfirstLt : ∀ k, 0 < countKey l k → firstKeyIdx l k < l.length := by
      intro k hk
      exact List.findIdx_lt_length.mpr (List.countP_pos_iff.mp hk)
    cases hk : safe_album_key t with
    | none =>
      have hstep : stepCounts (countsOf l) t = countsOf l := by
        simp [stepCounts, hk]
      have hmm : ∀ k, keyMatches k t = false := by
        intro k; simp [keyMatches, hk]
      rw [hfold, hstep]
      refine ⟨ha, ?_, ?_, ?_⟩
      · intro k
        rw [hcount k, hmm k, hb k]
        simp
      · intro k
        rw [hc k, hcount k, hmm k]
        simp
      · refine List.Pairwise.imp_of_mem ?_ hd
        intro a b hma hmb hr
        rw [hfirstMem a ((hc a).mp hma), hfirstMem b ((hc b).mp hmb)]
        exact hr
    | some k₀ =>
      have hstep : stepCounts (countsOf l) t = counterIncr (countsOf l) k₀ := by
        simp [stepCounts, hk]
      have hmm : ∀ k, keyMatches k t = (k₀ == k) := by
        intro k; simp [keyMatches, hk]
      have hb' : ∀ k, lookupNat (counterIncr (countsOf l) k₀) k = countKey (l ++ [t]) k := by
        intro k
        rw [counterIncr_lookupNat, hb k, hcount k, hmm k]
        congr 1
        by_cases h : k = k₀
        · simp [h]
        · have hne : (k₀ == k) = false := by
            rw [beq_eq_false_iff_ne]
            exact fun hh => h hh.symm
          simp [h, hne]
      rw [hfold, hstep]
      by_cases hmem : k₀ ∈ (countsOf l).map Prod.fst
      · rw [counterIncr_keys, if_pos hmem]
        refine ⟨ha, hb', ?_, ?_⟩
        · intro k
          rw [hc k, hcount k, hmm k]
          by_cases h : k₀ = k
          · subst h
            have hpos := (hc k₀).mp hmem
            simp only [beq_self_eq_true, if_pos rfl]
            constructor
            · intro _; omega
            · intro _; exact hpos
          · have hne : (k₀ == k) = false := by
              rw [beq_eq_false_iff_ne]; exact h
            simp [hne]
        · refine List.Pairwise.imp_of_mem ?_ hd
          intro a b hma hmb hr
          rw [hfirstMem a ((hc a).mp hma), hfirstMem b ((hc b).mp hmb)]
          exact hr
      · rw [counterIncr_keys, if_neg hmem]
        have hzero : countKey l k₀ = 0 := by
          by_contra h
          exact hmem ((hc k₀).mpr (Nat.pos_of_ne_zero h))
        have hnotfound : l.findIdx (keyMatches k₀) = l.length := by
          rw [List.findIdx_eq_length]
          intro x hx
          have := List.countP_eq_zero.mp hzero x hx
          simpa using this
        have hk₀idx : firstKeyIdx (l ++ [t]) k₀ = l.length := by
          rw [firstKeyIdx, List.findIdx_append, if_neg (by omega)]
          have hpt : keyMatches k₀ t = true := by
            rw [hmm k₀]; exact beq_self_eq_true k₀
          rw [List.findIdx_cons, hpt]
          simp [hnotfound]
        refine ⟨?_, hb', ?_, ?_⟩
        · simp [List.nodup_append, ha, hmem]
        · intro k
          rw [List.mem_append, hc k, hcount k, hmm k]
          by_cases h : k₀ = k
          · subst h
            simp [hzero]
          · have hne : (k₀ == k) = false := by
              rw [beq_eq_false_iff_ne]; exact h
            have h' : ¬ k = k₀ := fun hh => h hh.symm
            simp [hne, h']
        · rw [List.pairwise_append]
          refine ⟨?_, List.pairwise_singleton _ _, ?_⟩
          · refine List.Pairwise.imp_of_mem ?_ hd
            intro a b hma hmb hr
            rw [hfirstMem a ((hc a).mp hma), hfirstMem b ((hc b).mp hmb)]
            exact hr
          · intro a hma b hmb
            have hb₀ : b = k₀ := by simpa using hmb
            subst hb₀
            rw [hk₀idx, hfirstMem a ((hc a).mp hma)]
            exact hfirstLt a ((hc a).mp hma)

/-- Every pair stored in the aggregation `Counter` carries its key's true
play count. -/
theorem counts_val_aux (l : List Track) (p : String × Nat) (hp : p ∈ countsOf l) :
    p.2 = countKey l p.1 := by
  obtain ⟨hnd, hlk, -, -⟩ := countsOf_inv l
  have h1 := lookup_of_mem_aux (countsOf l) hnd p hp
  have h2 := hlk p.1
  rw [lookupNat, h1] at h2
  simpa using h2

/-- The descending-count comparator is transitive. -/
theorem countDescLE_trans (a b c : String × Nat) :
    countDescLE a b → countDescLE b c → countDescLE a c := by
  simp only [countDescLE, decide_eq_true_eq]
  omega

/-- The descending-count comparator is total. -/
theorem countDescLE_total (a b : String × Nat) :
    countDescLE a b || countDescLE b a := by
  simp only [countDescLE]
  rcases Nat.le_total b.2 a.2 with h | h <;> simp [h]

/-- C1: the final selection is distinct, holds at most
`min(LAST_N_LISTENS, GRID²)` album keys and exactly
`min(#distinct keys, GRID²)` of them, contains only keys of the truncated
window, contains every key of the window unless it is full, beats every
unselected key on play count, is ordered by descending count with ties
broken by the key's first occurrence in the truncated event list, and at
the cutoff an unselected key tied on count first occurs strictly after
every selected key it ties with (stable selection). -/
theorem C1_selection_spec (tracks : List Track) :
    (selection tracks).Nodup ∧
    (selection tracks).length ≤ min LAST_N_LISTENS (GRID * GRID) ∧
    (∀ k, k ∈ selection tracks →
      0 < countKey (tracks.take LAST_N_LISTENS) k) ∧
    (∀ k, k ∈ selection tracks → ∀ k', k' ∉ selection tracks →
      countKey (tracks.take LAST_N_LISTENS) k' ≤
        countKey (tracks.take LAST_N_LISTENS) k) ∧
    (∀ (i j : Nat) (hi : i < (selection tracks).length)
        (hj : j < (selection tracks).length), i < j →
      countKey (tracks.take LAST_N_LISTENS) ((selection tracks).get ⟨j, hj⟩) ≤
        countKey (tracks.take LAST_N_LISTENS) ((selection tracks).get ⟨i, hi⟩) ∧
      (countKey (tracks.take LAST_N_LISTENS) ((selection tracks).get ⟨i, hi⟩) =
          countKey (tracks.take LAST_N_LISTENS) ((selection tracks).get ⟨j, hj⟩) →
        firstKeyIdx (tracks.take LAST_N_LISTENS) ((selection tracks).get ⟨i, hi⟩) <
          firstKeyIdx (tracks.take LAST_N_LISTENS) ((selection tracks).get ⟨j, hj⟩))) ∧
    (selection tracks).length =
      min (countsOf (tracks.take LAST_N_LISTENS)).length (GRID * GRID) ∧
    (∀ k, 0 < countKey (tracks.take LAST_N_LISTENS) k →
      k ∈ selection tracks ∨ (selection tracks).length = GRID * GRID) ∧
    (∀ k, k ∈ selection tracks → ∀ k', k' ∉ selection tracks →
      0 < countKey (tracks.take LAST_N_LISTENS) k' →
      countKey (tracks.take LAST_N_LISTENS) k' =
        countKey (tracks.take LAST_N_LISTENS) k →
      firstKeyIdx (tracks.take LAST_N_LISTENS) k <
        firstKeyIdx (tracks.take LAST_N_LISTENS) k') := by
  set w := tracks.take LAST_N_LISTENS with hw
  have hcounts : (aggregate tracks).album_counts = countsOf w := by
    rw [aggregate, countsProj_aux]
    rfl
  obtain ⟨hnd, hlk, hmemiff, hpair⟩ := countsOf_inv w
  set c := countsOf w with hcdef
  set sorted := c.mergeSort countDescLE with hsorted_def
  have hsel : selection tracks = (sorted.take (GRID * GRID)).map Prod.fst := by
    rw [selection, top_albums, most_common, hcounts]
  have hperm : sorted.Perm c := List.mergeSort_perm c countDescLE
  have hsorted : List.Pairwise (fun a b => countDescLE a b = true) sorted := by
    rw [hsorted_def]
    exact List.sorted_mergeSort countDescLE_trans countDescLE_total c
  have hval : ∀ p ∈ sorted, p.2 = countKey w p.1 := fun p hp =>
    counts_val_aux w p (hperm.mem_iff.mp hp)
  have hndk : (sorted.map Prod.fst).Nodup := ((hperm.map Prod.fst).nodup_iff).mpr hnd
  have hselnd : (selection tracks).Nodup := by
    rw [hsel, List.map_take]
    exact List.Sublist.nodup (List.take_sublist _ _) hndk
  have hlen : (selection tracks).length ≤ min LAST_N_LISTENS (GRID * GRID) := by
    rw [hsel, List.length_map, List.length_take]
    have hmin : min LAST_N_LISTENS (GRID * GRID) = GRID * GRID := by decide
    rw [hmin]
    exact Nat.min_le_left _ _
  have hlen25 : (selection tracks).length ≤ GRID * GRID := by
    rw [hsel, List.length_map, List.length_take]
    exact Nat.min_le_left _ _
  have hselmem : ∀ k, k ∈ selection tracks → 0 < countKey w k := by
    intro k hk
    rw [hsel] at hk
    obtain ⟨p, hp, hpk⟩ := List.mem_map.mp hk
    have hp' : p ∈ sorted := List.mem_of_mem_take hp
    have hpc : p ∈ c := hperm.mem_iff.mp hp'
    rw [← hpk]
    exact (hmemiff p.1).mp (List.mem_map_of_mem Prod.fst hpc)
  have hdropmem : ∀ k', k' ∉ selection tracks → 0 < countKey w k' →
      ∃ q, q ∈ sorted.drop (GRID * GRID) ∧ q.1 = k' := by
    intro k' hk' h0
    have hk'mem : k' ∈ c.map Prod.fst := (hmemiff k').mpr h0
    obtain ⟨q, hq, hq1⟩ := List.mem_map.mp hk'mem
    have hq' : q ∈ sorted := hperm.mem_iff.mpr hq
    have hq'' : q ∈ sorted.take (GRID * GRID) ++ sorted.drop (GRID * GRID) := by
      rw [List.take_append_drop]
      exact hq'
    rcases List.mem_append.mp hq'' with hhh | hhh
    · exact absurd (by rw [hsel]; exact hq1 ▸ List.mem_map_of_mem Prod.fst hhh) hk'
    · exact ⟨q, hhh, hq1⟩
  have hhigh : ∀ k, k ∈ selection tracks → ∀ k', k' ∉ selection tracks →
      countKey w k' ≤ countKey w k := by
    intro k hk k' hk'
    by_cases h0 : 0 < countKey w k'
    · obtain ⟨q, hqdrop, hq1⟩ := hdropmem k' hk' h0
      have hq' : q ∈ sorted := List.mem_of_mem_drop hqdrop
      rw [hsel] at hk
      obtain ⟨p, hp, hpk⟩ := List.mem_map.mp hk
      have hge : countDescLE p q := by
        have hs2 := hsorted
        rw [← List.take_append_drop (GRID * GRID) sorted] at hs2
        exact (List.pairwise_append.mp hs2).2.2 p hp q hqdrop
      have hvq := hval q hq'
      have hvp := hval p (List.mem_of_mem_take hp)
      simp only [countDescLE, decide_eq_true_eq] at hge
      rw [← hpk, ← hq1, ← hvp, ← hvq]
      exact hge
    · have hz : countKey w k' = 0 := by omega
      rw [hz]
      exact Nat.zero_le _
  have hlenEq : (selection tracks).length = min c.length (GRID * GRID) := by
    rw [hsel, List.length_map, List.length_take, hperm.length_eq, Nat.min_comm]
  have hcomp : ∀ k, 0 < countKey w k →
      k ∈ selection tracks ∨ (selection tracks).length = GRID * GRID := by
    intro k hk
    by_cases hfull : GRID * GRID ≤ sorted.length
    · right
      rw [hsel, List.length_map, List.length_take]
      exact Nat.min_eq_left hfull
    · left
      rw [hsel, List.take_of_length_le (Nat.le_of_not_le hfull)]
      exact ((hperm.map Prod.fst).mem_iff).mpr ((hmemiff k).mpr hk)
  set S := c.enum.mergeSort (List.enumLE countDescLE) with hS_def
  have hSmap : S.map (·.2) = sorted := List.mergeSort_enum
  have hSsorted : List.Pairwise (fun a b => List.enumLE countDescLE a b = true) S := by
    rw [hS_def]
    exact List.sorted_mergeSort (List.enumLE_trans countDescLE_trans)
      (List.enumLE_total countDescLE_total) c.enum
  have hSlen : S.length = sorted.length := by rw [← hSmap, List.length_map]
  have hsortlen : (selection tracks).length ≤ sorted.length := by
    rw [hsel, List.length_map, List.length_take]
    exact Nat.min_le_right _ _
  have hgetsel : ∀ (n : Nat) (hn : n < (selection tracks).length) (hnS : n < S.length),
      (selection tracks).get ⟨n, hn⟩ = (S.get ⟨n, hnS⟩).2.1 := by
    intro n hn hnS
    simp only [List.get_eq_getElem, hsel, List.getElem_map, List.getElem_take, ← hSmap]
  have hSsortedmem : ∀ (n : Nat) (hnS : n < S.length), (S.get ⟨n, hnS⟩).2 ∈ sorted := by
    intro n hnS
    rw [← hSmap]
    exact List.mem_map_of_mem _ (List.get_mem S n hnS)
  have hSget : ∀ (n : Nat) (hnS : n < S.length) (hns : n < sorted.length),
      (S.get ⟨n, hnS⟩).2 = sorted.get ⟨n, hns⟩ := by
    intro n hnS hns
    simp only [List.get_eq_getElem, ← hSmap, List.getElem_map]
  have hcore : ∀ (i j : Nat) (hiS : i < S.length) (hjS : j < S.length), i < j →
      (S.get ⟨j, hjS⟩).2.2 ≤ (S.get ⟨i, hiS⟩).2.2 ∧
      ((S.get ⟨i, hiS⟩).2.2 = (S.get ⟨j, hjS⟩).2.2 →
        (S.get ⟨i, hiS⟩).2.1 ≠ (S.get ⟨j, hjS⟩).2.1 →
        firstKeyIdx w (S.get ⟨i, hiS⟩).2.1 < firstKeyIdx w (S.get ⟨j, hjS⟩).2.1) := by
    intro i j hiS hjS hij
    have henum := (List.pairwise_iff_get.mp hSsorted) ⟨i, hiS⟩ ⟨j, hjS⟩ hij
    set a := S.get ⟨i, hiS⟩ with ha_def
    set b := S.get ⟨j, hjS⟩ with hb_def
    have haS : a ∈ S := List.get_mem S i hiS
    have hbS : b ∈ S := List.get_mem S j hjS
    have haE : a ∈ c.enum := by
      rw [hS_def] at haS
      exact List.mem_mergeSort.mp haS
    have hbE : b ∈ c.enum := by
      rw [hS_def] at hbS
      exact List.mem_mergeSort.mp hbS
    have haC : getElem? c a.1 = some a.2 := List.mem_enum_iff_getElem?.mp haE
    have hbC : getElem? c b.1 = some b.2 := List.mem_enum_iff_getElem?.mp hbE
    obtain ⟨haLt, haGet⟩ := List.getElem?_eq_some.mp haC
    obtain ⟨hbLt, hbGet⟩ := List.getElem?_eq_some.mp hbC
    have hle1 : countDescLE a.2 b.2 = true := by
      cases hx : countDescLE a.2 b.2 with
      | true => rfl
      | false =>
        rw [List.enumLE, hx] at henum
        simp at henum
    constructor
    · simpa [countDescLE] using hle1
    · intro heq2 hneq
      have hle2 : countDescLE b.2 a.2 = true := by
        simp only [countDescLE, decide_eq_true_eq]
        omega
      have hidxle : a.1 ≤ b.1 := by
        rw [List.enumLE, hle1, hle2] at henum
        simpa using henum
      have hne1 : a.1 ≠ b.1 := by
        intro he
        apply hneq
        have hsm := haC
        rw [he, hbC] at hsm
        rw [Option.some.inj hsm]
      have hidxlt : a.1 < b.1 := Nat.lt_of_le_of_ne hidxle hne1
      have haMap : a.1 < (c.map Prod.fst).length := by
        rw [List.length_map]; exact haLt
      have hbMap : b.1 < (c.map Prod.fst).length := by
        rw [List.length_map]; exact hbLt
      have hkeya : (c.map Prod.fst).get ⟨a.1, haMap⟩ = a.2.1 := by
        simp only [List.get_eq_getElem, List.getElem_map]
        rw [haGet]
      have hkeyb : (c.map Prod.fst).get ⟨b.1, hbMap⟩ = b.2.1 := by
        simp only [List.get_eq_getElem, List.getElem_map]
        rw [hbGet]
      have hres := (List.pairwise_iff_get.mp hpair) ⟨a.1, haMap⟩ ⟨b.1, hbMap⟩ hidxlt
      rw [hkeya, hkeyb] at hres
      exact hres
  refine ⟨hselnd, hlen, hselmem, hhigh, ?_, hlenEq, hcomp, ?_⟩
  · intro i j hi hj hij
    have hiS : i < S.length := by omega
    have hjS : j < S.length := by omega
    obtain ⟨hc1, hc2⟩ := hcore i j hiS hjS hij
    have hva : (S.get ⟨i, hiS⟩).2.2 = countKey w (S.get ⟨i, hiS⟩).2.1 :=
      hval _ (hSsortedmem i hiS)
    have hvb : (S.get ⟨j, hjS⟩).2.2 = countKey w (S.get ⟨j, hjS⟩).2.1 :=
      hval _ (hSsortedmem j hjS)
    rw [hgetsel i hi hiS, hgetsel j hj hjS]
    constructor
    · rw [← hva, ← hvb]
      exact hc1
    · intro hcnt
      apply hc2
      · rw [hva, hvb, hcnt]
      · intro he
        have hgeq : (selection tracks).get ⟨i, hi⟩ = (selection tracks).get ⟨j, hj⟩ := by
          rw [hgetsel i hi hiS, hgetsel j hj hjS]
          exact he
        have hfin := (hselnd.get_inj_iff).mp hgeq
        rw [Fin.mk.injEq] at hfin
        omega
  · intro k hk k' hk' h0 hcnt
    obtain ⟨i, hi, hik⟩ := List.mem_iff_getElem.mp hk
    have hiS : i < S.length := by omega
    obtain ⟨q, hqdrop, hq1⟩ := hdropmem k' hk' h0
    obtain ⟨m, hm, hmq⟩ := List.mem_iff_getElem.mp hqdrop
    have hmlen := hm
    rw [List.length_drop] at hmlen
    have hj' : GRID * GRID + m < sorted.length := by omega
    have hjS : GRID * GRID + m < S.length := by omega
    have hij : i < GRID * GRID + m :=
      Nat.lt_of_lt_of_le (Nat.lt_of_lt_of_le hi hlen25) (Nat.le_add_right _ _)
    obtain ⟨hc1, hc2⟩ := hcore i (GRID * GRID + m) hiS hjS hij
    have hak : (S.get ⟨i, hiS⟩).2.1 = k := by
      rw [← hgetsel i hi hiS, List.get_eq_getElem]
      exact hik
    have hbq : (S.get ⟨GRID * GRID + m, hjS⟩).2 = q := by
      have hgd : sorted.get ⟨GRID * GRID + m, hj'⟩ = q := by
        rw [List.get_eq_getElem, ← List.getElem_drop]
        exact hmq
      rw [hSget _ hjS hj']
      exact hgd
    have hbk : (S.get ⟨GRID * GRID + m, hjS⟩).2.1 = k' := by
      rw [hbq]
      exact hq1
    have hva : (S.get ⟨i, hiS⟩).2.2 = countKey w (S.get ⟨i, hiS⟩).2.1 :=
      hval _ (hSsortedmem i hiS)
    have hvb : (S.get ⟨GRID * GRID + m, hjS⟩).2.2 =
        countKey w (S.get ⟨GRID * GRID + m, hjS⟩).2.1 :=
      hval _ (hSsortedmem _ hjS)
    have heqc : (S.get ⟨i, hiS⟩).2.2 = (S.get ⟨GRID * GRID + m, hjS⟩).2.2 := by
      rw [hva, hvb, hak, hbk, hcnt]
    have hnek : (S.get ⟨i, hiS⟩).2.1 ≠ (S.get ⟨GRID * GRID + m, hjS⟩).2.1 := by
      rw [hak, hbk]
      intro he
      exact hk' (he ▸ hk)
    have hres := hc2 heqc hnek
    rw [hak, hbk] at hres
    exact hres

/-- C1 witness: a single-event list selects exactly its album, which has a
positive play count in the window and is confirmed selected by the
completeness conjunct. -/
theorem C1_selection_spec_witness :
    selection [⟨some (.fstr "A"), some (.fstr "X"), []⟩] = ["A — X"] ∧
    0 < countKey (([⟨some (.fstr "A"), some (.fstr "X"), []⟩] :
        List Track).take LAST_N_LISTENS) "A — X" ∧
    ("A — X" ∈ selection [⟨some (.fstr "A"), some (.fstr "X"), []⟩] ∨
      (selection [⟨some (.fstr "A"), some (.fstr "X"), []⟩]).length = GRID * GRID) := by
  have h1 : (aggregate [⟨some (.fstr "A"), some (.fstr "X"), []⟩]).album_counts =
      [("A — X", 1)] := by decide
  have hsel : selection [⟨some (.fstr "A"), some (.fstr "X"), []⟩] = ["A — X"] := by
    rw [selection, top_albums, h1, most_common, List.mergeSort_singleton]
    rfl
  refine ⟨hsel, ?_, ?_⟩
  · exact (C1_selection_spec [⟨some (.fstr "A"), some (.fstr "X"), []⟩]).2.2.1 "A — X"
      (by rw [hsel]; exact List.mem_singleton.mpr rfl)
  · exact (C1_selection_spec [⟨some (.fstr "A"), some (.fstr "X"), []⟩]).2.2.2.2.2.2.1
      "A — X" (by decide)

end Banner
